import Mathlib

/-!
Verification of the rhythm Proof-of-History core: a shallow embedding of
`src/lib/src/hash.rs` (chain hashing) and `src/poh/src/poh.rs` (PoH engine
and verifiers), with theorems settling the specification claims.

The SHA-256 and BLAKE3 digests themselves are provided by external crates
(`ring`, `blake3`); they are modelled as an abstract `Digest` value (an
arbitrary function from byte streams to 32-byte outputs).  All chain and
verifier logic in this repository is generic in that digest, so every
theorem below is stated for an arbitrary `Digest`.

Machine integers: Rust `u64` values are embedded as `Nat` together with
explicit saturating / checked operations (`satAdd`, `checkedAdd`,
`checkedMul`) that clamp or fail at `2 ^ 64 - 1` exactly as the source does.
Bytes are embedded as `Nat` (values below 256 in real executions; none of
the verified logic depends on the bound).
-/

namespace Rhythm

/-- Rust `u64::MAX`. -/
def U64MAX : Nat := 2 ^ 64 - 1

/-- Rust `u64::saturating_add`. -/
def satAdd (a b : Nat) : Nat := min (a + b) U64MAX

/-- Rust `u64::saturating_sub` (on `Nat`, subtraction already truncates at 0). -/
def satSub (a b : Nat) : Nat := a - b

/-- Rust `u64::checked_add`. -/
def checkedAdd (a b : Nat) : Option Nat :=
  if a + b ≤ U64MAX then some (a + b) else none

/-- Rust `u64::checked_mul`. -/
def checkedMul (a b : Nat) : Option Nat :=
  if a * b ≤ U64MAX then some (a * b) else none

/-- A 32-byte hash value, `[u8; 32]` in the source. -/
abbrev Hash32 : Type := Mathlib.Vector Nat 32

/-- An abstract 32-byte digest over byte streams.  Stands for the external
SHA-256 (`ring`) or BLAKE3 (`blake3`) primitives selected by the `Hasher`;
incremental `update` calls are modelled as digesting the concatenation of
the updated byte strings, which is exactly how the source uses them. -/
structure Digest where
  run : List Nat → Hash32

/-- Translation of `Algorithm` from src/lib/src/hash.rs: the selectable digest. -/
inductive Algorithm where
  | SHA256
  | BLAKE3
deriving DecidableEq

/-- Translation of `impl Default for Algorithm` (the `#[default]` variant is `SHA256`). -/
def Algorithm.defaultAlgorithm : Algorithm := .SHA256

/-- Translation of `impl From<u8> for Algorithm` from src/lib/src/hash.rs lines 11-18:
`1` maps to BLAKE3, any other byte value defaults to SHA-256. -/
def Algorithm.fromU8 : Nat → Algorithm
  | 1 => .BLAKE3
  | _ => .SHA256

/-- Translation of `Algorithm::name` from src/lib/src/hash.rs lines 27-32. -/
def Algorithm.name : Algorithm → String
  | .SHA256 => "SHA-256"
  | .BLAKE3 => "BLAKE3"

/-- Translation of `Hasher::hash`: a single digest of the input data. -/
def hashData (D : Digest) (data : List Nat) : Hash32 := D.run data

/-- Translation of `Hasher::embed_data` from src/lib/src/hash.rs lines 70-89: digest of the
32-byte previous hash followed by the event bytes. -/
def embed_data (D : Digest) (previous_hash : Hash32) (data : List Nat) : Hash32 :=
  D.run (previous_hash.toList ++ data)

/-- Translation of `Hasher::previous_hash` from src/lib/src/hash.rs lines 91-108: digest of
the 32-byte previous hash alone — the atomic chain-advance step. -/
def previous_hash (D : Digest) (hash : Hash32) : Hash32 :=
  D.run hash.toList

/-- The naive sequential loop `for _ in 0..n { h = previous_hash(h) }`, as in
the short path of `extend_hash_chain` and its remainder loop. -/
def advanceN (D : Digest) : Nat → Hash32 → Hash32
  | 0, h => h
  | n + 1, h => advanceN D n (previous_hash D h)

/-- The unrolled body of `extend_hash_chain`'s main loop: eight successive
`previous_hash` applications (src/lib/src/hash.rs lines 127-134). -/
def advance8 (D : Digest) (h : Hash32) : Hash32 :=
  previous_hash D (previous_hash D (previous_hash D (previous_hash D
    (previous_hash D (previous_hash D (previous_hash D (previous_hash D h)))))))

/-- The main `while let Some(next_i) = i.checked_add(8)` loop of
`extend_hash_chain` (src/lib/src/hash.rs lines 122-136).  The loop continues
while `i.checked_add(8)` succeeds (`i + 8 ≤ U64MAX`) and `next_i` does not
exceed `iterations`; each pass performs the eight unrolled advances and sets
`i := i + 8`.  `fuel` is a structural bound making the recursion total; the
caller passes `fuel := iterations`, which the loop can never exhaust because
each pass consumes 8 of the at most `iterations` remaining steps (and the
exhaustion branch returns the running `(i, h)` pair in any case). -/
def mainLoop (D : Digest) (iterations : Nat) : Nat → Nat → Hash32 → Nat × Hash32
  | 0, i, h => (i, h)
  | fuel + 1, i, h =>
    if i + 8 ≤ U64MAX ∧ i + 8 ≤ iterations then
      mainLoop D iterations fuel (i + 8) (advance8 D h)
    else (i, h)

/-- Translation of `Hasher::extend_hash_chain` from src/lib/src/hash.rs lines 110-144:
a short naive path for `iterations < 8`, then the unrolled main loop
followed by the remainder loop `for _ in i..iterations`. -/
def extend_hash_chain (D : Digest) (previous : Hash32) (iterations : Nat) : Hash32 :=
  if iterations < 8 then advanceN D iterations previous
  else
    let p := mainLoop D iterations iterations 0 previous
    advanceN D (iterations - p.1) p.2

/-- Translation of `Hasher::constant_time_eq` from src/lib/src/hash.rs lines 166-173:
OR-accumulate the XOR of every byte pair, then compare the accumulator with
zero once. -/
def constant_time_eq (a b : Hash32) : Bool :=
  ((List.finRange 32).foldl (fun result i => result ||| (a.get i ^^^ b.get i)) 0) == 0

/-- Translation of `Hasher::verify_hash_chain` from src/lib/src/hash.rs lines 146-158:
embed the event data first if present, extend by `iterations`, then compare
in constant time against the claimed next hash. -/
def verify_hash_chain (D : Digest) (previous next_hash : Hash32) (iterations : Nat)
    (event_data : Option (List Nat)) : Bool :=
  let expected₁ : Hash32 :=
    match event_data with
    | some data => embed_data D previous data
    | none => previous
  let expected : Hash32 := extend_hash_chain D expected₁ iterations
  constant_time_eq expected next_hash

/-! ### Timing constants

The PoH engine imports these from `lib::metronome`; that module's source
file is not under src/ (only `src/lib/src/hash.rs` is present for the lib
crate), so the constants are taken from the specification. -/

/-- Modelled from the spec: `DEFAULT_US_PER_REV` of the absent
`lib::metronome` module — microseconds per rev = 6,250 (6,000 base + 250
tolerance), spec §6. -/
def DEFAULT_US_PER_REV : Nat := 6250

/-- Modelled from the spec: `DEFAULT_REVS_PER_PHASE` of the absent
`lib::metronome` module — revs per phase = 64, spec §6. -/
def DEFAULT_REVS_PER_PHASE : Nat := 64

/-- Modelled from the spec: `DEFAULT_HASHES_PER_REV` of the absent
`lib::metronome` module — hashes per rev = 12,500, spec §6. -/
def DEFAULT_HASHES_PER_REV : Nat := 12500

/-- Modelled from the spec: `DEFAULT_PHASES_PER_CYCLE` of the absent
`lib::metronome` module — phases per cycle = 432,000 (production), spec §6. -/
def DEFAULT_PHASES_PER_CYCLE : Nat := 432000

/-! ### The PoH engine and its verifiers (src/poh/src/poh.rs) -/

/-- Translation of `Record` from src/poh/src/types.rs: the immutable output unit of a tick. -/
structure Record where
  hash : Hash32
  rev_index : Nat
  phase_index : Nat
  cycle_index : Nat
  timestamp_ms : Nat
  event : Option (List Nat)

/-- Translation of the `PoH` state from src/poh/src/types.rs, minus `start_time`: the monotonic
clock is modelled as an explicit oracle passed to each tick (`now_ms`), so
the engine state carries only the data the transitions read and write. -/
structure PoHState where
  current_hash : Hash32
  rev_count : Nat
  phase_count : Nat
  cycle_count : Nat
  next_rev_target_us : Nat

/-- Translation of `PoH::new` from src/poh/src/poh.rs lines 14-25: hash the seed once for
the initial chain tip, zero the counters, schedule the first deadline. -/
def PoH_new (D : Digest) (seed : List Nat) : PoHState :=
  { current_hash := hashData D seed
    rev_count := 0
    phase_count := 0
    cycle_count := 0
    next_rev_target_us := DEFAULT_US_PER_REV }

/-- The per-pair body of `PoH::verify_records` (src/poh/src/poh.rs lines
42-58): the hash transition check followed by the three sequence-number
checks; the pair passes only if all four hold. -/
def checkPair (D : Digest) (prev curr : Record) : Bool :=
  verify_hash_chain D prev.hash curr.hash DEFAULT_HASHES_PER_REV curr.event &&
    ((curr.rev_index == satAdd prev.rev_index 1) &&
      ((curr.phase_index == curr.rev_index / DEFAULT_REVS_PER_PHASE) &&
        (curr.cycle_index == curr.rev_index / (DEFAULT_REVS_PER_PHASE * DEFAULT_PHASES_PER_CYCLE))))

/-- The `for window in records.windows(2)` loop of `PoH::verify_records`:
check every consecutive pair, short-circuiting at the first failure. -/
def verifyPairs (D : Digest) : List Record → Bool
  | [] => true
  | [_] => true
  | a :: b :: rest => checkPair D a b && verifyPairs D (b :: rest)

/-- Translation of `PoH::verify_records` from src/poh/src/poh.rs lines 35-61: empty input
is invalid, otherwise every consecutive window of two records is checked. -/
def verify_records (D : Digest) (records : List Record) : Bool :=
  if records.isEmpty then false else verifyPairs D records

/-- The expected timestamp for record `i` computed by `PoH::verify_timestamps`
(src/poh/src/poh.rs line 72):
`first.saturating_add((i as u64).checked_mul(US_PER_REV).unwrap_or(0) / 1000)`. -/
def expectedTimestamp (first i : Nat) : Nat :=
  satAdd first ((checkedMul i DEFAULT_US_PER_REV).getD 0 / 1000)

/-- The per-record body of `PoH::verify_timestamps` (src/poh/src/poh.rs lines
70-99): the record fails when its timestamp falls outside the ±8 ms window
around the expected timestamp (bounds computed with saturating arithmetic);
the `log_failures` printing has no effect on the result. -/
def tsCheck (first i : Nat) (r : Record) : Bool :=
  let expected := expectedTimestamp first i
  let lower := satSub expected 8
  let upper := satAdd expected 8
  if r.timestamp_ms < lower ∨ r.timestamp_ms > upper then false else true

/-- The `for (i, record) in records.iter().enumerate()` loop of
`PoH::verify_timestamps`, short-circuiting at the first failing record. -/
def tsLoop (first : Nat) : Nat → List Record → Bool
  | _, [] => true
  | i, r :: rest => if tsCheck first i r then tsLoop first (i + 1) rest else false

/-- Translation of `PoH::verify_timestamps` from src/poh/src/poh.rs lines 63-101: empty
input is invalid; otherwise every record (including the first) is checked
against the anchor taken from the first record's timestamp. -/
def verify_timestamps (records : List Record) (log_failures : Bool) : Bool :=
  match records with
  | [] => false
  | r :: rest => tsLoop r.timestamp_ms 0 (r :: rest)

/-- Translation of `PoH::core` from src/poh/src/poh.rs lines 103-142, the single transition
behind `next_rev` and `insert_event`.  `enforce_timing` only waits (it reads
the clock and mutates nothing), so it is not part of the state transition;
the record's `timestamp_ms` is the elapsed-milliseconds reading `now_ms`.
A `None` result models the fatal `checked_add(...).expect(...)` panics. -/
def core (D : Digest) (s : PoHState) (event_data : Option (List Nat)) (now_ms : Nat) :
    Option (PoHState × Record) :=
  let current₁ : Hash32 :=
    match event_data with
    | some event => embed_data D s.current_hash event
    | none => s.current_hash
  let current₂ : Hash32 := extend_hash_chain D current₁ DEFAULT_HASHES_PER_REV
  let rev_index := s.rev_count
  let phase_index := rev_index / DEFAULT_REVS_PER_PHASE
  let cycle_index := phase_index / DEFAULT_PHASES_PER_CYCLE
  let record : Record :=
    { hash := current₂
      rev_index := rev_index
      phase_index := phase_index
      cycle_index := cycle_index
      timestamp_ms := now_ms
      event := event_data }
  match checkedAdd s.rev_count 1 with
  | none => none
  | some rev₂ =>
    match (if rev₂ % DEFAULT_REVS_PER_PHASE == 0 then checkedAdd s.phase_count 1
           else some s.phase_count) with
    | none => none
    | some phase₂ =>
      if (phase_index % DEFAULT_PHASES_PER_CYCLE == 0) && (rev₂ % DEFAULT_REVS_PER_PHASE == 0) then
        some ({ current_hash := current₂, rev_count := rev₂, phase_count := 0,
                cycle_count := cycle_index,
                next_rev_target_us := satAdd s.next_rev_target_us DEFAULT_US_PER_REV }, record)
      else
        some ({ current_hash := current₂, rev_count := rev₂, phase_count := phase₂,
                cycle_count := s.cycle_count,
                next_rev_target_us := satAdd s.next_rev_target_us DEFAULT_US_PER_REV }, record)

/-- A run of the engine: feed the ticks in order (`none` = `next_rev`,
`some bytes` = `insert_event`), reading the wall clock through the oracle
`clock` (tick `k` observes elapsed milliseconds `clock k`).  Stops with
`none` if any tick hits the fatal counter overflow. -/
def runAux (D : Digest) (clock : Nat → Nat) :
    List (Option (List Nat)) → PoHState → Nat → Option (PoHState × List Record)
  | [], s, _ => some (s, [])
  | ev :: rest, s, k =>
    (core D s ev (clock k)).bind fun p =>
      (runAux D clock rest p.1 (k + 1)).map fun q => (q.1, p.2 :: q.2)

/-- A full run from a seed. -/
def runEngine (D : Digest) (seed : List Nat) (events : List (Option (List Nat)))
    (clock : Nat → Nat) : Option (PoHState × List Record) :=
  runAux D clock events (PoH_new D seed) 0

/-- Erase the one wall-clock-dependent field of a record. -/
def eraseTimestamp (r : Record) : Record := { r with timestamp_ms := 0 }

/-- Projection of a run to its clock-independent part: the final state and
every record's hash, indices and event payload (timestamps erased). -/
def stripRun (p : PoHState × List Record) : PoHState × List Record :=
  (p.1, p.2.map eraseTimestamp)

/-! ### Single-bit tampering of record fields -/

/-- Flip bit `bit` of byte `bytePos` of a record's hash. -/
def flipHashBit (r : Record) (bytePos : Fin 32) (bit : Nat) : Record :=
  { r with hash := r.hash.set bytePos (r.hash.get bytePos ^^^ 2 ^ bit) }

/-- Flip bit `bit` of a record's `rev_index`. -/
def flipRevBit (r : Record) (bit : Nat) : Record :=
  { r with rev_index := r.rev_index ^^^ 2 ^ bit }

/-- Flip bit `bit` of a record's `phase_index`. -/
def flipPhaseBit (r : Record) (bit : Nat) : Record :=
  { r with phase_index := r.phase_index ^^^ 2 ^ bit }

/-- Flip bit `bit` of a record's `cycle_index`. -/
def flipCycleBit (r : Record) (bit : Nat) : Record :=
  { r with cycle_index := r.cycle_index ^^^ 2 ^ bit }

/-! ### Specification-side definitions -/

/-- The expected timestamp exactly as the specification words it:
`anchor + i * US_PER_REV / 1000` (plain arithmetic, no clamping). -/
def specExpectedTimestamp (anchor i : Nat) : Nat :=
  anchor + i * DEFAULT_US_PER_REV / 1000

/-- The claim's acceptance window, from the spec's words: the record's
timestamp lies within the fixed symmetric tolerance (8 ms, the code's
constant) of the expected timestamp `anchor + i * US_PER_REV / 1000`. -/
def timestampWithinTolerance (anchor i : Nat) (r : Record) : Prop :=
  specExpectedTimestamp anchor i - 8 ≤ r.timestamp_ms ∧
    r.timestamp_ms ≤ specExpectedTimestamp anchor i + 8

/-- The acceptance window the code actually enforces: the same ±8 ms window,
but around the saturating/checked expected timestamp of line 72, with
saturating bounds. -/
def timestampWithinSatTolerance (anchor i : Nat) (r : Record) : Prop :=
  satSub (expectedTimestamp anchor i) 8 ≤ r.timestamp_ms ∧
    r.timestamp_ms ≤ satAdd (expectedTimestamp anchor i) 8

/-! ### Concrete values used by witnesses and counterexamples -/

/-- The all-zero 32-byte hash. -/
def zeroHash : Hash32 := Mathlib.Vector.replicate 32 0

/-- A concrete digest instance for evaluating the chain logic on explicit
inputs (the theorems are digest-generic; any instance may witness them). -/
def constDigest : Digest := ⟨fun _ => zeroHash⟩

/-- A concrete genesis record. -/
def sampleRecord0 : Record :=
  { hash := zeroHash, rev_index := 0, phase_index := 0, cycle_index := 0,
    timestamp_ms := 0, event := none }

/-- The record a valid successor of `sampleRecord0` must be under
`constDigest` (its hash is the 12,500-step extension of the zero hash, which
`constDigest` maps to the zero hash). -/
def sampleRecord1 : Record :=
  { hash := zeroHash, rev_index := 1, phase_index := 0, cycle_index := 0,
    timestamp_ms := 6, event := none }

/-- A record carrying the largest representable `u64` timestamp. -/
def maxTsRecord : Record :=
  { hash := zeroHash, rev_index := 0, phase_index := 0, cycle_index := 0,
    timestamp_ms := U64MAX, event := none }

/-! ### Helper lemmas about the hash chain primitives -/

lemma lor_eq_zero_iff (a b : Nat) : a ||| b = 0 ↔ a = 0 ∧ b = 0 := by
  constructor
  · intro h
    have ht : ∀ k, a.testBit k = false ∧ b.testBit k = false := by
      intro k
      have hk : (a ||| b).testBit k = false := by simp [h]
      rw [Nat.testBit_lor] at hk
      exact ⟨(Bool.or_eq_false_iff.mp hk).1, (Bool.or_eq_false_iff.mp hk).2⟩
    exact ⟨Nat.eq_of_testBit_eq fun k => by simp [(ht k).1],
           Nat.eq_of_testBit_eq fun k => by simp [(ht k).2]⟩
  · rintro ⟨rfl, rfl⟩
    rfl

lemma foldl_lor_eq_zero {α : Type} (f : α → Nat) :
    ∀ (l : List α) (acc : Nat),
      (l.foldl (fun r x => r ||| f x) acc = 0) ↔ (acc = 0 ∧ ∀ x ∈ l, f x = 0) := by
  intro l
  induction l with
  | nil => intro acc; simp
  | cons x xs ih =>
    intro acc
    rw [List.foldl_cons, ih, lor_eq_zero_iff]
    constructor
    · rintro ⟨⟨h1, h2⟩, h3⟩
      exact ⟨h1, by
        intro y hy
        rcases List.mem_cons.mp hy with rfl | hy
        · exact h2
        · exact h3 y hy⟩
    · rintro ⟨h1, h2⟩
      exact ⟨⟨h1, h2 x (List.mem_cons_self x xs)⟩, fun y hy => h2 y (List.mem_cons_of_mem x hy)⟩

/-- The accumulate-XOR-then-check-zero comparison decides exact equality of
the two 32-byte values. -/
lemma constant_time_eq_true_iff (a b : Hash32) : constant_time_eq a b = true ↔ a = b := by
  unfold constant_time_eq
  rw [beq_iff_eq, foldl_lor_eq_zero]
  constructor
  · rintro ⟨-, h⟩
    exact Mathlib.Vector.ext fun m => Nat.xor_eq_zero.mp (h m (List.mem_finRange m))
  · rintro rfl
    exact ⟨rfl, fun i _ => Nat.xor_eq_zero.mpr rfl⟩

lemma advanceN_add (D : Digest) (m : Nat) :
    ∀ (n : Nat) (h : Hash32), advanceN D (m + n) h = advanceN D m (advanceN D n h) := by
  intro n
  induction n with
  | zero => intro h; rfl
  | succ n ih =>
    intro h
    simpa [advanceN] using ih (previous_hash D h)

lemma advance8_eq (D : Digest) (h : Hash32) : advance8 D h = advanceN D 8 h := rfl

lemma mainLoop_advanceN (D : Digest) (iterations : Nat) :
    ∀ (fuel i : Nat) (h : Hash32),
      advanceN D (iterations - (mainLoop D iterations fuel i h).1)
          (mainLoop D iterations fuel i h).2
        = advanceN D (iterations - i) h := by
  intro fuel
  induction fuel with
  | zero => intro i h; rfl
  | succ fuel ih =>
    intro i h
    by_cases hc : i + 8 ≤ U64MAX ∧ i + 8 ≤ iterations
    · simp only [mainLoop]
      rw [if_pos hc, ih (i + 8) (advance8 D h), advance8_eq, ← advanceN_add]
      congr 1
      omega
    · simp only [mainLoop]
      rw [if_neg hc]

/-- The function `extend_hash_chain` refines the naive sequential loop. -/
lemma extend_eq_advanceN (D : Digest) (h : Hash32) (n : Nat) :
    extend_hash_chain D h n = advanceN D n h := by
  unfold extend_hash_chain
  by_cases hlt : n < 8
  · rw [if_pos hlt]
  · rw [if_neg hlt]
    exact mainLoop_advanceN D n n 0 h

lemma advanceN_eq_iterate (D : Digest) :
    ∀ (n : Nat) (h : Hash32), advanceN D n h = (previous_hash D)^[n] h := by
  intro n
  induction n with
  | zero => intro h; rfl
  | succ n ih =>
    intro h
    rw [Function.iterate_succ_apply]
    exact ih (previous_hash D h)

/-- The function `verify_hash_chain` returns true exactly when the claimed hash equals the
recomputed one (event embedded first when present, then `iterations` chain
steps). -/
lemma verify_hash_chain_true_iff (D : Digest) (previous next_hash : Hash32) (n : Nat)
    (event_data : Option (List Nat)) :
    verify_hash_chain D previous next_hash n event_data = true ↔
      next_hash = extend_hash_chain D
        (match event_data with
          | some data => embed_data D previous data
          | none => previous) n := by
  simp only [verify_hash_chain]
  rw [constant_time_eq_true_iff]
  exact eq_comm

/-! ### Claims about the hash primitive -/

/-- C1: for every 32-byte previous hash, claimed next hash, iteration count
and optional event payload, `verify_hash_chain` returns true if and only if
the claimed next hash equals the result of first applying `embed_data` when
event data is present (the previous hash unchanged otherwise) and then
applying `extend_hash_chain` with `n` iterations. -/
theorem claim_C1_verify_hash_chain_iff (D : Digest) (previous next_hash : Hash32) (n : Nat)
    (event_data : Option (List Nat)) :
    verify_hash_chain D previous next_hash n event_data = true ↔
      next_hash = extend_hash_chain D
        (match event_data with
          | some data => embed_data D previous data
          | none => previous) n :=
  verify_hash_chain_true_iff D previous next_hash n event_data

/-- C2: for every 32-byte hash and every iteration count `n` (including all
values straddling the 8-way unrolling boundary), `extend_hash_chain` is
bit-identical to applying the single-step advance `previous_hash` exactly
`n` times in a naive sequential loop; in particular `n = 0` returns the
input unchanged. -/
theorem claim_C2_extend_chain_equiv (D : Digest) (h : Hash32) (n : Nat) :
    extend_hash_chain D h n = (previous_hash D)^[n] h ∧ extend_hash_chain D h 0 = h := by
  constructor
  · rw [extend_eq_advanceN, advanceN_eq_iterate]
  · rfl

/-! ### Decomposing the record verifier -/

lemma checkPair_true_iff (D : Digest) (prev curr : Record) :
    checkPair D prev curr = true ↔
      verify_hash_chain D prev.hash curr.hash DEFAULT_HASHES_PER_REV curr.event = true ∧
        curr.rev_index = satAdd prev.rev_index 1 ∧
        curr.phase_index = curr.rev_index / DEFAULT_REVS_PER_PHASE ∧
        curr.cycle_index = curr.rev_index / (DEFAULT_REVS_PER_PHASE * DEFAULT_PHASES_PER_CYCLE) := by
  simp [checkPair, Bool.and_eq_true, beq_iff_eq, and_assoc]

lemma verifyPairs_true_iff (D : Digest) :
    ∀ rs : List Record,
      verifyPairs D rs = true ↔ ∀ i (h : i + 1 < rs.length), checkPair D rs[i] rs[i + 1] = true := by
  intro rs
  induction rs with
  | nil =>
    simp only [verifyPairs, List.length_nil, true_iff]
    intro i h
    exact absurd h (by omega)
  | cons a tail ih =>
    cases tail with
    | nil =>
      simp only [verifyPairs, List.length_cons, List.length_nil, true_iff]
      intro i h
      exact absurd h (by omega)
    | cons b rest =>
      show (checkPair D a b && verifyPairs D (b :: rest)) = true ↔ _
      rw [Bool.and_eq_true, ih]
      constructor
      · rintro ⟨h0, hrest⟩ i h
        match i with
        | 0 => exact h0
        | i + 1 =>
          have hlt : i + 1 < (b :: rest).length := by
            simp only [List.length_cons] at h ⊢
            omega
          simpa using hrest i hlt
      · intro h
        refine ⟨h 0 (by simp), fun i hi => ?_⟩
        have hlt : (i + 1) + 1 < (a :: b :: rest).length := by
          simp only [List.length_cons] at hi ⊢
          omega
        simpa using h (i + 1) hlt

lemma verify_records_true_iff (D : Digest) (rs : List Record) :
    verify_records D rs = true ↔
      (rs ≠ [] ∧ ∀ i (h : i + 1 < rs.length), checkPair D rs[i] rs[i + 1] = true) := by
  unfold verify_records
  cases rs with
  | nil => simp
  | cons a tail =>
    rw [if_neg (by simp)]
    rw [verifyPairs_true_iff]
    simp

lemma verify_records_false_of_pair (D : Digest) (rs : List Record) (i : Nat)
    (h : i + 1 < rs.length) (hpair : checkPair D rs[i] rs[i + 1] = false) :
    verify_records D rs = false := by
  rw [Bool.eq_false_iff]
  intro hv
  have htrue := ((verify_records_true_iff D rs).mp hv).2 i h
  rw [hpair] at htrue
  exact Bool.false_ne_true htrue

/-! ### Claims about the record verifier -/

/-- C3: for every non-empty record sequence, `verify_records` returns true
if and only if every consecutive pair passes the hash-transition check (via
`verify_hash_chain` with `HASHES_PER_REV` iterations and the current
record's event) and the three index checks (`rev_index` increments with
saturating arithmetic, `phase_index` and `cycle_index` are derived from
`rev_index` by division); equivalently, any single violation makes the whole
result false. -/
theorem claim_C3_verify_records_iff (D : Digest) (records : List Record)
    (hne : records ≠ []) :
    verify_records D records = true ↔
      ∀ i (h : i + 1 < records.length),
        verify_hash_chain D records[i].hash records[i + 1].hash DEFAULT_HASHES_PER_REV
            records[i + 1].event = true ∧
          records[i + 1].rev_index = satAdd records[i].rev_index 1 ∧
          records[i + 1].phase_index = records[i + 1].rev_index / DEFAULT_REVS_PER_PHASE ∧
          records[i + 1].cycle_index
            = records[i + 1].rev_index / (DEFAULT_REVS_PER_PHASE * DEFAULT_PHASES_PER_CYCLE) := by
  rw [verify_records_true_iff]
  constructor
  · rintro ⟨-, h⟩ i hi
    exact (checkPair_true_iff D records[i] records[i + 1]).mp (h i hi)
  · intro h
    exact ⟨hne, fun i hi => (checkPair_true_iff D records[i] records[i + 1]).mpr (h i hi)⟩

/-- C3 witness: the singleton sequence is non-empty and (having no pairs)
verifies. -/
theorem claim_C3_witness : verify_records constDigest [sampleRecord0] = true :=
  (claim_C3_verify_records_iff constDigest [sampleRecord0] (by simp)).mpr
    (fun i hi => absurd hi (by simp))

/-- C6: both verifiers reject the empty sequence: empty input is invalid,
not vacuously valid. -/
theorem claim_C6_empty_invalid (D : Digest) (log_failures : Bool) :
    verify_records D [] = false ∧ verify_timestamps [] log_failures = false :=
  ⟨rfl, rfl⟩

/-- C8: `verify_records` accepts every single-record sequence without
checking anything in it, and the first record's `phase_index` and
`cycle_index` are never validated in any sequence: replacing them by
arbitrary values never changes the verifier's output. -/
theorem claim_C8_first_record_unchecked (D : Digest) (r : Record) (p c : Nat)
    (rest : List Record) :
    verify_records D [r] = true ∧
      verify_records D ({ r with phase_index := p, cycle_index := c } :: rest)
        = verify_records D (r :: rest) := by
  refine ⟨rfl, ?_⟩
  cases rest with
  | nil => rfl
  | cons b t => rfl

/-- C7: converting any selector byte yields BLAKE3 exactly for the value 1
and the default algorithm (SHA-256) for every other byte, without error; for
any byte other than 1 the resulting algorithm's observable name is the
default algorithm's name. -/
theorem claim_C7_algorithm_fallback (b : Nat) (hb : b < 256) :
    Algorithm.fromU8 b = (if b = 1 then Algorithm.BLAKE3 else Algorithm.SHA256) ∧
      (b ≠ 1 → Algorithm.fromU8 b = Algorithm.defaultAlgorithm ∧
        (Algorithm.fromU8 b).name = Algorithm.defaultAlgorithm.name) := by
  match b with
  | 0 => exact ⟨rfl, fun _ => ⟨rfl, rfl⟩⟩
  | 1 => exact ⟨rfl, fun hc => absurd rfl hc⟩
  | n + 2 =>
    refine ⟨?_, fun _ => ⟨rfl, rfl⟩⟩
    rw [if_neg (by omega)]
    rfl

/-- C7 witness: the out-of-range selector byte 7 falls back to the default
algorithm, observable via its name. -/
theorem claim_C7_witness :
    Algorithm.fromU8 7 = Algorithm.defaultAlgorithm ∧
      (Algorithm.fromU8 7).name = Algorithm.defaultAlgorithm.name :=
  (claim_C7_algorithm_fallback 7 (by decide)).2 (by decide)

/-! ### Tamper detection (C4) -/

lemma xor_two_pow_ne (x k : Nat) : x ^^^ 2 ^ k ≠ x := by
  intro hEq
  have h0 : (2 : Nat) ^ k = 0 := by
    have hx := congrArg (fun y => x ^^^ y) hEq
    simp only at hx
    rwa [← Nat.xor_assoc, Nat.xor_self, Nat.zero_xor] at hx
  exact absurd h0 (by positivity)

/-- Replacing the record at position `j + 1` with one that fails the pair
check against its predecessor makes the whole verifier reject. -/
lemma tamper_false (D : Digest) (rs : List Record) (j : Nat) (h : j + 1 < rs.length)
    (modified : Record) (hbad : checkPair D rs[j] modified = false) :
    verify_records D (rs.set (j + 1) modified) = false := by
  have hlen : j + 1 < (rs.set (j + 1) modified).length := by
    rw [List.length_set]
    exact h
  apply verify_records_false_of_pair D _ j hlen
  rw [List.getElem_set_ne (by omega), List.getElem_set_self]
  exact hbad

/-- C4 (amended): in every valid record sequence, flipping any single bit of
the hash, `rev_index`, `phase_index` or `cycle_index` of any record at
position 1 or later makes `verify_records` reject the modified sequence.
(Positions are written `j + 1`; the claim's original form, which also covers
position 0 and single-record sequences, is refuted by
`claim_C4_counterexample`.) -/
theorem claim_C4_amended_tamper_detection (D : Digest) (rs : List Record) (j : Nat)
    (h : j + 1 < rs.length) (hv : verify_records D rs = true) :
    (∀ (bytePos : Fin 32) (bit : Nat),
        verify_records D (rs.set (j + 1) (flipHashBit rs[j + 1] bytePos bit)) = false) ∧
      (∀ bit : Nat, verify_records D (rs.set (j + 1) (flipRevBit rs[j + 1] bit)) = false) ∧
      (∀ bit : Nat, verify_records D (rs.set (j + 1) (flipPhaseBit rs[j + 1] bit)) = false) ∧
      (∀ bit : Nat, verify_records D (rs.set (j + 1) (flipCycleBit rs[j + 1] bit)) = false) := by
  obtain ⟨h1, h2, h3, h4⟩ :=
    (checkPair_true_iff D rs[j] rs[j + 1]).mp (((verify_records_true_iff D rs).mp hv).2 j h)
  refine ⟨fun bytePos bit => ?_, fun bit => ?_, fun bit => ?_, fun bit => ?_⟩
  · -- hash flip: the recomputed expected hash is unchanged, the claimed one moved
    apply tamper_false D rs j h
    rw [Bool.eq_false_iff]
    intro hT
    obtain ⟨hA, -, -, -⟩ := (checkPair_true_iff D _ _).mp hT
    have hflip : (flipHashBit rs[j + 1] bytePos bit).hash = rs[j + 1].hash := by
      have hEv : (flipHashBit rs[j + 1] bytePos bit).event = rs[j + 1].event := rfl
      have hA2 := (verify_hash_chain_true_iff D _ _ _ _).mp hA
      have hO2 := (verify_hash_chain_true_iff D _ _ _ _).mp h1
      rw [hEv] at hA2
      rw [hA2, ← hO2]
    have hget := congrArg (fun v => Mathlib.Vector.get v bytePos) hflip
    simp only [flipHashBit, Mathlib.Vector.get_set_same] at hget
    exact xor_two_pow_ne _ bit hget
  · -- rev_index flip breaks the increment check
    apply tamper_false D rs j h
    rw [Bool.eq_false_iff]
    intro hT
    obtain ⟨-, hB, -, -⟩ := (checkPair_true_iff D _ _).mp hT
    rw [flipRevBit, ← h2] at hB
    exact xor_two_pow_ne _ bit hB
  · -- phase_index flip breaks the phase-derivation check
    apply tamper_false D rs j h
    rw [Bool.eq_false_iff]
    intro hT
    obtain ⟨-, -, hC, -⟩ := (checkPair_true_iff D _ _).mp hT
    rw [flipPhaseBit, ← h3] at hC
    exact xor_two_pow_ne _ bit hC
  · -- cycle_index flip breaks the cycle-derivation check
    apply tamper_false D rs j h
    rw [Bool.eq_false_iff]
    intro hT
    obtain ⟨-, -, -, hD⟩ := (checkPair_true_iff D _ _).mp hT
    rw [flipCycleBit, ← h4] at hD
    exact xor_two_pow_ne _ bit hD

set_option maxRecDepth 100000 in
/-- C4 as stated is false: a single-record sequence is valid, yet flipping a
bit of its hash leaves the verifier accepting (no pair ever checks it); and
in the valid two-record sequence below, flipping a bit of the first record's
`phase_index` is also undetected (the first record's phase and cycle fields
are never validated). -/
theorem claim_C4_counterexample :
    verify_records constDigest [sampleRecord0] = true ∧
      verify_records constDigest [flipHashBit sampleRecord0 0 0] = true ∧
      verify_records constDigest [sampleRecord0, sampleRecord1] = true ∧
      verify_records constDigest [flipPhaseBit sampleRecord0 3, sampleRecord1] = true := by
  refine ⟨rfl, rfl, by decide, by decide⟩

set_option maxRecDepth 100000 in
/-- C4 witness: in the concrete valid two-record chain, flipping bit 0 of
the second record's `rev_index` is detected. -/
theorem claim_C4_witness :
    verify_records constDigest
        ([sampleRecord0, sampleRecord1].set 1 (flipRevBit sampleRecord1 0)) = false :=
  (claim_C4_amended_tamper_detection constDigest [sampleRecord0, sampleRecord1] 0
    (by simp) (by decide)).2.1 0

/-! ### Decomposing the timestamp verifier -/

lemma tsCheck_true_iff (first i : Nat) (r : Record) :
    tsCheck first i r = true ↔ timestampWithinSatTolerance first i r := by
  simp only [tsCheck, timestampWithinSatTolerance]
  by_cases hc : r.timestamp_ms < satSub (expectedTimestamp first i) 8 ∨
      r.timestamp_ms > satAdd (expectedTimestamp first i) 8
  · rw [if_pos hc]
    apply iff_of_false (by simp)
    rintro ⟨hl, hu⟩
    rcases hc with hc | hc
    · exact Nat.lt_irrefl _ (Nat.lt_of_lt_of_le hc hl)
    · exact Nat.lt_irrefl _ (Nat.lt_of_le_of_lt hu hc)
  · rw [if_neg hc]
    push_neg at hc
    exact iff_of_true rfl ⟨hc.1, hc.2⟩

lemma tsLoop_true_iff (first : Nat) :
    ∀ (l : List Record) (j : Nat),
      tsLoop first j l = true ↔ ∀ i (h : i < l.length), tsCheck first (j + i) l[i] = true := by
  intro l
  induction l with
  | nil =>
    intro j
    simp only [tsLoop, List.length_nil, true_iff]
    intro i h
    exact absurd h (by omega)
  | cons r rest ih =>
    intro j
    show (if tsCheck first j r then tsLoop first (j + 1) rest else false) = true ↔ _
    by_cases hc : tsCheck first j r = true
    · rw [if_pos hc, ih (j + 1)]
      constructor
      · intro hrest i hi
        match i with
        | 0 => simpa using hc
        | i + 1 =>
          have hlt : i < rest.length := by
            simp only [List.length_cons] at hi
            omega
          have := hrest i hlt
          simpa [Nat.add_assoc, Nat.add_comm 1 i] using this
      · intro hall i hi
        have hlt : i + 1 < (r :: rest).length := by
          simp only [List.length_cons]
          omega
        have := hall (i + 1) hlt
        simpa [Nat.add_assoc, Nat.add_comm 1 i] using this
    · rw [if_neg hc]
      constructor
      · intro hf
        exact absurd hf Bool.false_ne_true
      · intro hall
        exact absurd (by simpa using hall 0 (by simp)) hc

lemma verify_timestamps_true_iff (records : List Record) (log_failures : Bool)
    (hne : records ≠ []) :
    verify_timestamps records log_failures = true ↔
      ∀ i (h : i < records.length),
        tsCheck (records.head hne).timestamp_ms i records[i] = true := by
  cases records with
  | nil => exact absurd rfl hne
  | cons r rest =>
    show tsLoop r.timestamp_ms 0 (r :: rest) = true ↔ _
    rw [tsLoop_true_iff]
    simp only [List.head_cons, Nat.zero_add]

lemma tsLoop_map_hash (g : Record → Hash32) (first : Nat) :
    ∀ (l : List Record) (j : Nat),
      tsLoop first j (l.map fun r => { r with hash := g r }) = tsLoop first j l := by
  intro l
  induction l with
  | nil => intro j; rfl
  | cons r rest ih =>
    intro j
    show (if tsCheck first j { r with hash := g r } then
        tsLoop first (j + 1) (rest.map fun r => { r with hash := g r }) else false) = _
    rw [ih (j + 1)]
    rfl

/-! ### Claims about the timestamp verifier -/

set_option maxRecDepth 10000 in
/-- C9 as stated is false: with the spec's plain-arithmetic expected
timestamp `anchor + i * US_PER_REV / 1000`, a sequence of three records all
carrying timestamp `u64::MAX` is accepted by `verify_timestamps` (the code
clamps the expected timestamp with saturating arithmetic), yet the third
record lies 12 ms short of the spec formula's expected value, outside the
fixed ±8 ms tolerance.  (Reading right-to-left, the claimed equivalence
fails at this concrete input.) -/
theorem claim_C9_counterexample :
    verify_timestamps [maxTsRecord, maxTsRecord, maxTsRecord] false = true ∧
      ¬ ∀ (i : Nat) (h : i < ([maxTsRecord, maxTsRecord, maxTsRecord] : List Record).length),
          timestampWithinTolerance maxTsRecord.timestamp_ms i
            ([maxTsRecord, maxTsRecord, maxTsRecord])[i] := by
  constructor
  · decide
  · intro hall
    obtain ⟨hl, -⟩ := hall 2 (by simp)
    exact absurd hl (by decide)

/-- C9 (amended): for every non-empty record sequence, `verify_timestamps`
returns true if and only if every record's timestamp lies within the fixed
symmetric ±8 ms tolerance of the expected timestamp computed in `u64`
arithmetic — `anchor saturating_add ((i * US_PER_REV or 0 on overflow) /
1000)`, with saturating window bounds — where the anchor is the first
record's timestamp; and the result does not depend on the records' hash
fields. -/
theorem claim_C9_amended_verify_timestamps (records : List Record) (log_failures : Bool)
    (hne : records ≠ []) :
    (verify_timestamps records log_failures = true ↔
      ∀ i (h : i < records.length),
        timestampWithinSatTolerance (records.head hne).timestamp_ms i records[i]) ∧
      ∀ g : Record → Hash32,
        verify_timestamps (records.map fun r => { r with hash := g r }) log_failures
          = verify_timestamps records log_failures := by
  constructor
  · rw [verify_timestamps_true_iff records log_failures hne]
    exact forall_congr' fun i => forall_congr' fun h => tsCheck_true_iff _ i _
  · intro g
    cases records with
    | nil => rfl
    | cons r rest => exact tsLoop_map_hash g r.timestamp_ms (r :: rest) 0

/-- C9 witness: the singleton sequence with timestamp 0 is accepted, via the
amended equivalence. -/
theorem claim_C9_witness : verify_timestamps [sampleRecord0] false = true := by
  have hne : ([sampleRecord0] : List Record) ≠ [] := by simp
  apply ((claim_C9_amended_verify_timestamps [sampleRecord0] false hne).1).mpr
  intro i hi
  have hi0 : i = 0 := by
    simp only [List.length_cons, List.length_nil] at hi
    omega
  subst hi0
  simp only [List.head_cons, List.getElem_cons_zero]
  exact ⟨by decide, by decide⟩

/-! ### The tick transition and counter overflow -/

lemma checkedAdd_of_le (a b : Nat) (h : a + b ≤ U64MAX) : checkedAdd a b = some (a + b) :=
  if_pos h

lemma checkedAdd_of_gt (a b : Nat) (h : U64MAX < a + b) : checkedAdd a b = none :=
  if_neg (by omega)

lemma core_none_of_max (D : Digest) (s : PoHState) (event_data : Option (List Nat))
    (now_ms : Nat) (hmax : s.rev_count = U64MAX) :
    core D s event_data now_ms = none := by
  simp only [core, checkedAdd_of_gt s.rev_count 1 (by omega)]

lemma core_some_of_lt (D : Digest) (s : PoHState) (event_data : Option (List Nat))
    (now_ms : Nat) (hlt : s.rev_count < U64MAX)
    (hinv : s.phase_count ≤ s.rev_count / DEFAULT_REVS_PER_PHASE) :
    ∃ s₂ r, core D s event_data now_ms = some (s₂, r) ∧ s₂.rev_count = s.rev_count + 1 := by
  have hM : U64MAX = 18446744073709551615 := by norm_num [U64MAX]
  have hpc : s.phase_count + 1 ≤ U64MAX := by
    have hdiv : s.rev_count / DEFAULT_REVS_PER_PHASE ≤ U64MAX / 64 := by
      simp only [DEFAULT_REVS_PER_PHASE]
      exact Nat.div_le_div_right (le_of_lt hlt)
    rw [hM] at hdiv ⊢
    omega
  simp only [core, checkedAdd_of_le s.rev_count 1 (by omega)]
  by_cases hb : ((s.rev_count + 1) % DEFAULT_REVS_PER_PHASE == 0) = true
  · rw [if_pos hb]
    simp only [checkedAdd_of_le s.phase_count 1 hpc]
    by_cases hcy : ((s.rev_count / DEFAULT_REVS_PER_PHASE % DEFAULT_PHASES_PER_CYCLE == 0) &&
        ((s.rev_count + 1) % DEFAULT_REVS_PER_PHASE == 0)) = true
    · rw [if_pos hcy]
      exact ⟨_, _, rfl, rfl⟩
    · rw [if_neg hcy]
      exact ⟨_, _, rfl, rfl⟩
  · simp only [if_neg hb]
    by_cases hcy : ((s.rev_count / DEFAULT_REVS_PER_PHASE % DEFAULT_PHASES_PER_CYCLE == 0) &&
        ((s.rev_count + 1) % DEFAULT_REVS_PER_PHASE == 0)) = true
    · rw [if_pos hcy]
      exact ⟨_, _, rfl, rfl⟩
    · rw [if_neg hcy]
      exact ⟨_, _, rfl, rfl⟩

/-- The phase-count invariant of reachable engine states: it holds at
construction and every successful tick preserves it (together with the
`u64` range bound on `rev_count`). -/
lemma phase_invariant_preserved (D : Digest) (s : PoHState) (event_data : Option (List Nat))
    (now_ms : Nat) (s₂ : PoHState) (r : Record)
    (hinv : s.phase_count ≤ s.rev_count / DEFAULT_REVS_PER_PHASE)
    (hc : core D s event_data now_ms = some (s₂, r)) :
    s₂.phase_count ≤ s₂.rev_count / DEFAULT_REVS_PER_PHASE ∧ s₂.rev_count ≤ U64MAX := by
  by_cases hrc : s.rev_count + 1 ≤ U64MAX
  · simp only [core, checkedAdd_of_le s.rev_count 1 hrc] at hc
    by_cases hb : ((s.rev_count + 1) % DEFAULT_REVS_PER_PHASE == 0) = true
    · rw [if_pos hb] at hc
      by_cases hpc : s.phase_count + 1 ≤ U64MAX
      · simp only [checkedAdd_of_le s.phase_count 1 hpc] at hc
        have hb0 : (s.rev_count + 1) % DEFAULT_REVS_PER_PHASE = 0 := by
          simpa using hb
        by_cases hcy : ((s.rev_count / DEFAULT_REVS_PER_PHASE % DEFAULT_PHASES_PER_CYCLE == 0) &&
            ((s.rev_count + 1) % DEFAULT_REVS_PER_PHASE == 0)) = true
        · rw [if_pos hcy] at hc
          obtain ⟨rfl, -⟩ := Prod.mk.injEq .. ▸ Option.some.inj hc
          exact ⟨Nat.zero_le _, hrc⟩
        · rw [if_neg hcy] at hc
          obtain ⟨rfl, -⟩ := Prod.mk.injEq .. ▸ Option.some.inj hc
          refine ⟨?_, hrc⟩
          show s.phase_count + 1 ≤ (s.rev_count + 1) / DEFAULT_REVS_PER_PHASE
          simp only [DEFAULT_REVS_PER_PHASE] at hinv hb0 ⊢
          omega
      · simp only [checkedAdd_of_gt s.phase_count 1 (by omega)] at hc
        exact Option.noConfusion hc
    · simp only [if_neg hb] at hc
      by_cases hcy : ((s.rev_count / DEFAULT_REVS_PER_PHASE % DEFAULT_PHASES_PER_CYCLE == 0) &&
          ((s.rev_count + 1) % DEFAULT_REVS_PER_PHASE == 0)) = true
      · rw [if_pos hcy] at hc
        obtain ⟨rfl, -⟩ := Prod.mk.injEq .. ▸ Option.some.inj hc
        exact ⟨Nat.zero_le _, hrc⟩
      · rw [if_neg hcy] at hc
        obtain ⟨rfl, -⟩ := Prod.mk.injEq .. ▸ Option.some.inj hc
        refine ⟨?_, hrc⟩
        show s.phase_count ≤ (s.rev_count + 1) / DEFAULT_REVS_PER_PHASE
        exact le_trans hinv (Nat.div_le_div_right (Nat.le_succ _))
  · simp only [core, checkedAdd_of_gt s.rev_count 1 (by omega)] at hc
    exact Option.noConfusion hc

/-- The invariant holds at construction. -/
lemma phase_invariant_new (D : Digest) (seed : List Nat) :
    (PoH_new D seed).phase_count ≤ (PoH_new D seed).rev_count / DEFAULT_REVS_PER_PHASE ∧
      (PoH_new D seed).rev_count ≤ U64MAX :=
  ⟨Nat.zero_le _, Nat.zero_le _⟩

/-- C10: under the invariants of reachable engine states (`rev_count` in
`u64` range, `phase_count` bounded by `rev_count / REVS_PER_PHASE` — both
established at construction by `phase_invariant_new` and preserved by every
tick by `phase_invariant_preserved`), a tick fails fatally if and only if
`rev_count` equals `u64::MAX` before the increment; `rev_count` is never
wrapped, and whenever `rev_count < u64::MAX` the tick completes and
increments `rev_count` by exactly one. -/
theorem claim_C10_overflow_fatal (D : Digest) (s : PoHState) (event_data : Option (List Nat))
    (now_ms : Nat) (hrange : s.rev_count ≤ U64MAX)
    (hinv : s.phase_count ≤ s.rev_count / DEFAULT_REVS_PER_PHASE) :
    (core D s event_data now_ms = none ↔ s.rev_count = U64MAX) ∧
      (s.rev_count < U64MAX →
        ∃ s₂ r, core D s event_data now_ms = some (s₂, r) ∧
          s₂.rev_count = s.rev_count + 1) := by
  by_cases hmax : s.rev_count = U64MAX
  · refine ⟨iff_of_true (core_none_of_max D s event_data now_ms hmax) hmax, ?_⟩
    intro hlt
    exact absurd hmax (Nat.ne_of_lt hlt)
  · have hlt : s.rev_count < U64MAX := lt_of_le_of_ne hrange hmax
    obtain ⟨s₂, r, hsome, hrev⟩ := core_some_of_lt D s event_data now_ms hlt hinv
    refine ⟨iff_of_false (by rw [hsome]; exact Option.some_ne_none _) hmax, ?_⟩
    intro _
    exact ⟨s₂, r, hsome, hrev⟩

/-- C10 witness: a freshly constructed engine state ticks successfully and
reaches `rev_count = 1`. -/
theorem claim_C10_witness :
    ∃ s₂ r, core constDigest (PoH_new constDigest []) none 0 = some (s₂, r) ∧
      s₂.rev_count = (PoH_new constDigest []).rev_count + 1 :=
  (claim_C10_overflow_fatal constDigest (PoH_new constDigest []) none 0
    (Nat.zero_le _) (Nat.zero_le _)).2 (by decide)

/-! ### Determinism of the engine (C5) -/

lemma core_clock_strip (D : Digest) (s : PoHState) (ev : Option (List Nat)) (t₁ t₂ : Nat) :
    (core D s ev t₁).map (fun p => (p.1, eraseTimestamp p.2))
      = (core D s ev t₂).map (fun p => (p.1, eraseTimestamp p.2)) := by
  by_cases hrc : s.rev_count + 1 ≤ U64MAX
  · simp only [core, checkedAdd_of_le s.rev_count 1 hrc]
    by_cases hb : ((s.rev_count + 1) % DEFAULT_REVS_PER_PHASE == 0) = true
    · simp only [if_pos hb]
      by_cases hpc : s.phase_count + 1 ≤ U64MAX
      · simp only [checkedAdd_of_le s.phase_count 1 hpc]
        by_cases hcy : ((s.rev_count / DEFAULT_REVS_PER_PHASE % DEFAULT_PHASES_PER_CYCLE == 0) &&
            ((s.rev_count + 1) % DEFAULT_REVS_PER_PHASE == 0)) = true
        · simp only [if_pos hcy]
          rfl
        · simp only [if_neg hcy]
          rfl
      · simp only [checkedAdd_of_gt s.phase_count 1 (by omega)]
    · simp only [if_neg hb]
      by_cases hcy : ((s.rev_count / DEFAULT_REVS_PER_PHASE % DEFAULT_PHASES_PER_CYCLE == 0) &&
          ((s.rev_count + 1) % DEFAULT_REVS_PER_PHASE == 0)) = true
      · simp only [if_pos hcy]
        rfl
      · simp only [if_neg hcy]
        rfl
  · simp only [core, checkedAdd_of_gt s.rev_count 1 (by omega)]

lemma runAux_strip (D : Digest) (c₁ c₂ : Nat → Nat) :
    ∀ (events : List (Option (List Nat))) (s : PoHState) (k₁ k₂ : Nat),
      (runAux D c₁ events s k₁).map stripRun = (runAux D c₂ events s k₂).map stripRun := by
  intro events
  induction events with
  | nil =>
    intro s k₁ k₂
    rfl
  | cons ev rest ih =>
    intro s k₁ k₂
    simp only [runAux]
    have hcore := core_clock_strip D s ev (c₁ k₁) (c₂ k₂)
    cases h₁ : core D s ev (c₁ k₁) with
    | none =>
      cases h₂ : core D s ev (c₂ k₂) with
      | none => rfl
      | some p₂ =>
        rw [h₁, h₂] at hcore
        exact Option.noConfusion hcore
    | some p₁ =>
      cases h₂ : core D s ev (c₂ k₂) with
      | none =>
        rw [h₁, h₂] at hcore
        exact Option.noConfusion hcore
      | some p₂ =>
        rw [h₁, h₂] at hcore
        obtain ⟨s₁, r₁⟩ := p₁
        obtain ⟨s₂, r₂⟩ := p₂
        simp only [Option.map_some'] at hcore
        have hpair := Option.some.inj hcore
        rw [Prod.mk.injEq] at hpair
        obtain ⟨hs, hr⟩ := hpair
        subst hs
        simp only [Option.some_bind]
        have hrest := ih s₁ (k₁ + 1) (k₂ + 1)
        cases hA : runAux D c₁ rest s₁ (k₁ + 1) with
        | none =>
          cases hB : runAux D c₂ rest s₁ (k₂ + 1) with
          | none => rfl
          | some q =>
            rw [hA, hB] at hrest
            exact Option.noConfusion hrest
        | some q₁ =>
          cases hB : runAux D c₂ rest s₁ (k₂ + 1) with
          | none =>
            rw [hA, hB] at hrest
            exact Option.noConfusion hrest
          | some q₂ =>
            rw [hA, hB] at hrest
            simp only [Option.map_some'] at hrest ⊢
            obtain ⟨sf₁, rs₁⟩ := q₁
            obtain ⟨sf₂, rs₂⟩ := q₂
            have h2 := Option.some.inj hrest
            simp only [stripRun, Prod.mk.injEq] at h2
            obtain ⟨hsf, hmap⟩ := h2
            subst hsf
            simp only [stripRun, List.map_cons, Option.some.injEq, Prod.mk.injEq]
            exact ⟨trivial, by rw [hr, hmap]⟩

/-- C5: for any two runs from the same seed with the same digest and the
same sequence of tick / tick-with-event calls (same event payloads), the
engine state after every tick — in particular `current_hash` — and the
hash, `rev_index`, `phase_index`, `cycle_index` and `event` fields of every
emitted record are bit-identical, whatever the two runs' wall clocks read
(`stripRun` erases exactly the `timestamp_ms` fields, the only
clock-dependent data).  Instantiating `events` with any prefix gives the
statement after tick N. -/
theorem claim_C5_determinism (D : Digest) (seed : List Nat)
    (events : List (Option (List Nat))) (clock₁ clock₂ : Nat → Nat) :
    (runEngine D seed events clock₁).map stripRun
      = (runEngine D seed events clock₂).map stripRun :=
  runAux_strip D clock₁ clock₂ events (PoH_new D seed) 0 0

end Rhythm
